import Mathlib

/-!
Shallow embedding of the request-admission and orchestration layer of the
IndexTTS API service (src/indextts/api_handler.py and src/api_server.py):
tier classification, the concurrency controller and its stats surface, the
GLM-to-IndexTTS parameter converter, the LRU prompt cache, and the
generate-speech orchestration and endpoint flow.
-/

namespace IndexTTS

/-- The three concurrency tiers (the three semaphores of
`ConcurrencyController`). -/
inductive Tier where
  | short
  | medium
  | long
deriving DecidableEq, Repr

/-- `ConcurrencyController.get_semaphore` (api_handler.py lines 78-85):
choose the tier from the text length. -/
def get_semaphore (text_length : Nat) : Tier :=
  if text_length ≤ 100 then Tier.short
  else if text_length ≤ 300 then Tier.medium
  else Tier.long

/-- State of one `ConcurrencyController`: the three semaphore values
(`asyncio.Semaphore._value`) and the two counters (api_handler.py
lines 70-76). -/
structure ControllerState where
  sem_short : Nat
  sem_medium : Nat
  sem_long : Nat
  current_tasks : Int
  total_requests : Int
deriving DecidableEq, Repr

/-- `ConcurrencyController.__init__(max_short, max_medium, max_long)`:
each semaphore starts at its configured capacity, counters at zero. -/
def ControllerState.init (max_short max_medium max_long : Nat) : ControllerState :=
  ⟨max_short, max_medium, max_long, 0, 0⟩

/-- The current value of the semaphore of tier `t`. -/
def semValue (s : ControllerState) : Tier → Nat
  | Tier.short => s.sem_short
  | Tier.medium => s.sem_medium
  | Tier.long => s.sem_long

/-- Effect of `semaphore.acquire()` on the state (value decreases by one;
acquisition only proceeds when the value is positive). -/
def acquireSem (t : Tier) (s : ControllerState) : ControllerState :=
  match t with
  | Tier.short => { s with sem_short := s.sem_short - 1 }
  | Tier.medium => { s with sem_medium := s.sem_medium - 1 }
  | Tier.long => { s with sem_long := s.sem_long - 1 }

/-- Effect of `semaphore.release()` on the state (value increases by one). -/
def releaseSem (t : Tier) (s : ControllerState) : ControllerState :=
  match t with
  | Tier.short => { s with sem_short := s.sem_short + 1 }
  | Tier.medium => { s with sem_medium := s.sem_medium + 1 }
  | Tier.long => { s with sem_long := s.sem_long + 1 }

/-- `ConcurrencyController.increment_task` (api_handler.py lines 87-91):
increment the in-flight counter and the lifetime counter. -/
def increment_task (s : ControllerState) : ControllerState :=
  { s with current_tasks := s.current_tasks + 1,
           total_requests := s.total_requests + 1 }

/-- `ConcurrencyController.decrement_task` (api_handler.py lines 93-96):
decrement the in-flight counter, floored at zero. -/
def decrement_task (s : ControllerState) : ControllerState :=
  { s with current_tasks := max 0 (s.current_tasks - 1) }

/-- The dictionary returned by `ConcurrencyController.get_stats`
(api_handler.py lines 98-106). -/
structure Stats where
  current_tasks : Int
  total_requests : Int
  max_concurrent_short : Nat
  max_concurrent_medium : Nat
  max_concurrent_long : Nat
deriving DecidableEq, Repr

/-- `ConcurrencyController.get_stats`: reports the counters and each
semaphore's current `_value`. -/
def get_stats (s : ControllerState) : Stats :=
  ⟨s.current_tasks, s.total_requests, s.sem_short, s.sem_medium, s.sem_long⟩

/-- One primitive action the program performs on the controller state:
a semaphore acquisition, a semaphore release, or one of the two counter
updates. -/
inductive CtrlOp where
  | acquire (t : Tier)
  | release (t : Tier)
  | increment
  | decrement
deriving DecidableEq, Repr

/-- Apply one primitive controller action. -/
def ctrlApply : CtrlOp → ControllerState → ControllerState
  | CtrlOp.acquire t, s => acquireSem t s
  | CtrlOp.release t, s => releaseSem t s
  | CtrlOp.increment, s => increment_task s
  | CtrlOp.decrement, s => decrement_task s

/-- Apply a sequence of primitive controller actions. -/
def ctrlRun (ops : List CtrlOp) (s : ControllerState) : ControllerState :=
  ops.foldl (fun st op => ctrlApply op st) s

/-- One step of the controller as the program can actually drive it:
`acquire` only fires when the semaphore value is positive (an
`asyncio.Semaphore` suspends the caller at zero). -/
inductive CtrlStep : ControllerState → ControllerState → Prop
  | acquire (t : Tier) (s : ControllerState) (h : 0 < semValue s t) :
      CtrlStep s (acquireSem t s)
  | release (t : Tier) (s : ControllerState) : CtrlStep s (releaseSem t s)
  | increment (s : ControllerState) : CtrlStep s (increment_task s)
  | decrement (s : ControllerState) : CtrlStep s (decrement_task s)

/-- Reachability of a controller state from the freshly constructed
controller. -/
def Reach (max_short max_medium max_long : Nat) (s : ControllerState) : Prop :=
  Relation.ReflTransGen CtrlStep (ControllerState.init max_short max_medium max_long) s

/-- Python `str.lower()` on a method name (character-wise lowercasing). -/
def strToLower (s : String) : String :=
  ⟨s.data.map Char.toLower⟩

/-- The GLM-TTS style parameter dictionary consumed by
`ParameterConverter.convert_glm_to_indextts`: each key the code reads,
`none` when the key is absent from the dictionary. -/
structure GlmParams where
  sample_method : Option String
  sampling : Option Int
  beam_size : Option Int
  temperature : Option ℚ
  top_p : Option ℚ
  repetition_penalty : Option ℚ
  length_penalty : Option ℚ
  max_mel_tokens : Option Int
deriving DecidableEq, Repr

/-- The empty parameter dictionary. -/
def GlmParams.empty : GlmParams :=
  ⟨none, none, none, none, none, none, none, none⟩

/-- The IndexTTS2 parameter dictionary produced by
`ParameterConverter.convert_glm_to_indextts`: optional keys are only
present on some paths, the five numeric keys are always set. -/
structure IndexTtsParams where
  do_sample : Option Bool
  top_k : Option Int
  num_beams : Option Int
  temperature : ℚ
  top_p : ℚ
  repetition_penalty : ℚ
  length_penalty : ℚ
  max_mel_tokens : Int
deriving DecidableEq, Repr

/-- `ParameterConverter.convert_glm_to_indextts` (api_handler.py
lines 112-148): sample-method conversion, beam size, sampling parameter,
then the defaulted numeric parameters. -/
def convert_glm_to_indextts (params : GlmParams) : IndexTtsParams :=
  let sample_method := strToLower (params.sample_method.getD "ras")
  let do_sample : Option Bool :=
    if sample_method = "ras" then some true
    else if sample_method = "topk" then some true
    else none
  let top_k0 : Option Int :=
    if sample_method = "topk" then some (params.sampling.getD 25) else none
  let num_beams : Option Int := params.beam_size
  let top_k : Option Int :=
    if params.sampling.isSome ∧ sample_method ≠ "topk" then params.sampling
    else top_k0
  { do_sample := do_sample
    top_k := top_k
    num_beams := num_beams
    temperature := params.temperature.getD 0.8
    top_p := params.top_p.getD 0.8
    repetition_penalty := params.repetition_penalty.getD 10.0
    length_penalty := params.length_penalty.getD 0.0
    max_mel_tokens := params.max_mel_tokens.getD 1500 }

/-- The info dictionary returned by `IndexTTSAPIHandler.generate_speech`:
on success `{generation_time, text_length, sample_rate}` (api_handler.py
lines 291-295), on failure `{error}` (line 306). -/
inductive InfoDict where
  | ok (generation_time : ℚ) (text_length : Nat) (sample_rate : Int)
  | failed (error : String)
deriving DecidableEq, Repr

/-- `info.get("sample_rate", 24000)` as read by the endpoint. -/
def InfoDict.getSampleRate : InfoDict → Int
  | InfoDict.ok _ _ sr => sr
  | InfoDict.failed _ => 24000

/-- `info["generation_time"]`, read only on the success branch where the
key is always present. -/
def InfoDict.getTime : InfoDict → ℚ
  | InfoDict.ok gt _ _ => gt
  | InfoDict.failed _ => 0

/-- `info.get("error", "Unknown error")` as read by the endpoint's failure
branch. -/
def InfoDict.getError : InfoDict → String
  | InfoDict.ok _ _ _ => "Unknown error"
  | InfoDict.failed e => e

/-- The `(success, result, info)` triple returned by
`IndexTTSAPIHandler.generate_speech`. -/
structure GenReturn (A : Type) where
  success : Bool
  result : Option A
  info : InfoDict
deriving DecidableEq, Repr

/-- `IndexTTSAPIHandler.generate_speech` (api_handler.py lines 235-306) on
one admitted call: classify the text, acquire the tier semaphore, bump the
counters, run the backend (`backendCall` stands for the
`run_in_executor(self._sync_generate, ...)` outcome, `Except.error` when
the backend raises), and on every exit path decrement the in-flight
counter (the `finally` block) and release the semaphore (leaving the
`async with` scope); a raising backend yields
`(False, None, {"error": detail})` from the outer `except`. -/
def generate_speech {A : Type} (text : String) (backendCall : Except String A)
    (generation_time : ℚ) (s : ControllerState) : GenReturn A × ControllerState :=
  let text_length := text.length
  let tier := get_semaphore text_length
  let s1 := increment_task (acquireSem tier s)
  match backendCall with
  | Except.ok artifact =>
      (⟨true, some artifact, InfoDict.ok generation_time text_length 24000⟩,
        releaseSem tier (decrement_task s1))
  | Except.error e =>
      (⟨false, none, InfoDict.failed e⟩, releaseSem tier (decrement_task s1))

/-- Python `str.strip()`: remove leading and trailing whitespace. -/
def pyStrip (s : String) : String :=
  ⟨((s.data.dropWhile Char.isWhitespace).reverse.dropWhile Char.isWhitespace).reverse⟩

/-- The form fields of the `/api/v1/tts` endpoint (api_server.py
lines 192-204). -/
structure TtsRequest where
  input_text : String
  index : Option String
  prompt_audio : Option String
  prompt_text : Option String
  sample_rate : Int
  use_cache : String
  use_phoneme : String
  sample_method : String
  sampling : Int
  beam_size : Int
  seed : Int
deriving DecidableEq, Repr

/-- The `TTSResponse` model of api_server.py (lines 65-72); fields not set
by a branch keep their `None` default. -/
structure TtsResponse where
  success : Bool
  message : String
  audio_base64 : Option String
  sample_rate : Option Int
  generation_time : Option ℚ
  error : Option String
deriving DecidableEq, Repr

/-- The collaborators of the `/api/v1/tts` endpoint that are external to
the orchestration core: the prompt index table
(`handler.get_prompt_path`), upload persistence (`save_uploaded_audio`),
the temp output path, the backend invocation (text, prompt path, output
path, generation parameters; `Except.error` models a raised exception),
the wall-clock duration of the call, `os.path.exists`, and
`audio_to_base64`. -/
structure TtsEnv where
  promptTable : String → Option String
  savedUploadPath : String → String
  outputPath : String
  backend : String → String → String → IndexTtsParams → Except String String
  generation_time : ℚ
  pathExists : String → Bool
  encode : String → String

/-- Prompt resolution of the `/api/v1/tts` endpoint (api_server.py
lines 224-248): index mode when a non-empty `index` is supplied (an
unknown or empty resolved path is `INDEX_NOT_FOUND`), otherwise upload
mode, otherwise `MISSING_PROMPT`. -/
def promptPathOf (env : TtsEnv) (req : TtsRequest) : Except TtsResponse String :=
  let uploadMode : Except TtsResponse String :=
    match req.prompt_audio with
    | some payload => Except.ok (env.savedUploadPath payload)
    | none =>
        Except.error
          ⟨false, "Either 'index' or 'prompt_audio' must be provided",
            none, none, none, some "MISSING_PROMPT"⟩
  match req.index with
  | some idx =>
      if idx = "" then uploadMode
      else
        match env.promptTable idx with
        | some p =>
            if p = "" then
              Except.error
                ⟨false, "Prompt index not found", none, none, none,
                  some "INDEX_NOT_FOUND"⟩
            else Except.ok p
        | none =>
            Except.error
              ⟨false, "Prompt index not found", none, none, none,
                some "INDEX_NOT_FOUND"⟩
  | none => uploadMode

/-- The `/api/v1/tts` endpoint `generate_tts` (api_server.py
lines 191-318): empty-text validation, prompt resolution, GLM-to-IndexTTS
parameter conversion of exactly `{sample_method, sampling, beam_size}`,
the `generate_speech` call, and response construction (`success and
result and os.path.exists(result)` guards the success response). -/
def generate_tts (env : TtsEnv) (req : TtsRequest) (s : ControllerState) :
    TtsResponse × ControllerState :=
  if req.input_text = "" ∨ (pyStrip req.input_text).length = 0 then
    (⟨false, "Input text is empty", none, none, none, some "EMPTY_TEXT"⟩, s)
  else
    match promptPathOf env req with
    | Except.error resp => (resp, s)
    | Except.ok prompt_path =>
        let gen_params := convert_glm_to_indextts
          { GlmParams.empty with
              sample_method := some req.sample_method
              sampling := some req.sampling
              beam_size := some req.beam_size }
        let call := env.backend req.input_text prompt_path env.outputPath gen_params
        let ret_s1 := generate_speech req.input_text call env.generation_time s
        let ret := ret_s1.1
        let s1 := ret_s1.2
        match ret.result with
        | some p =>
            if ret.success && (p != "") && env.pathExists p then
              (⟨true, "Audio generated successfully", some (env.encode p),
                 some ret.info.getSampleRate, some ret.info.getTime, none⟩, s1)
            else
              (⟨false, "Generation failed", none, none, none,
                 some ret.info.getError⟩, s1)
        | none =>
            (⟨false, "Generation failed", none, none, none,
               some ret.info.getError⟩, s1)

/-- Lookup in a Python dict modelled as an association list (first binding
wins; bindings are kept duplicate-free by `dictSet`/`dictDelete`). -/
def dictFind {V : Type} : List (String × V) → String → Option V
  | [], _ => none
  | kv :: rest, k => if kv.1 = k then some kv.2 else dictFind rest k

/-- Whether a key is present: Python `key in dict`. -/
def dictContains {V : Type} (c : List (String × V)) (k : String) : Bool :=
  (dictFind c k).isSome

/-- Python `dict[key] = value`: update the existing binding in place, or
append a new binding. -/
def dictSet {V : Type} : List (String × V) → String → V → List (String × V)
  | [], k, v => [(k, v)]
  | kv :: rest, k, v =>
      if kv.1 = k then (k, v) :: rest else kv :: dictSet rest k v

/-- Python `del dict[key]`: remove the binding of `key` (first occurrence;
the sole occurrence when keys are duplicate-free). -/
def dictDelete {V : Type} : List (String × V) → String → List (String × V)
  | [], _ => []
  | kv :: rest, k => if kv.1 = k then rest else kv :: dictDelete rest k

/-- Python `list.remove(key)` on a list of keys (first occurrence). -/
def listRemove : List String → String → List String
  | [], _ => []
  | x :: rest, k => if x = k then rest else x :: listRemove rest k

/-- The keys of an association list, in binding order. -/
def keysOf {V : Type} (c : List (String × V)) : List String :=
  c.map Prod.fst

/-- State of a `PromptCache` (api_handler.py lines 23-64): the configured
maximum, the dict of cached values, and the LRU access order (least
recently touched first). -/
structure PromptCache (V : Type) where
  max_size : Nat
  cache : List (String × V)
  access_order : List String
deriving DecidableEq, Repr

/-- `PromptCache.__init__(max_size)`: empty dict, empty access order. -/
def PromptCache.empty (V : Type) (max_size : Nat) : PromptCache V :=
  ⟨max_size, [], []⟩

/-- `PromptCache.get` (api_handler.py lines 32-40): on a hit, move the key
to most-recently-used position and return the value; on a miss return
`None` and leave the cache unchanged. -/
def PromptCache.get {V : Type} (c : PromptCache V) (key : String) :
    Option V × PromptCache V :=
  match dictFind c.cache key with
  | some v => (some v, { c with access_order := listRemove c.access_order key ++ [key] })
  | none => (none, c)

/-- Lines 50-54 of `PromptCache.put`: refresh the recency of an existing
key, store the value, and append the key as most recently used. -/
def PromptCache.putTail {V : Type} (c : PromptCache V) (key : String) (v : V) :
    PromptCache V :=
  let ao := if dictContains c.cache key then listRemove c.access_order key
            else c.access_order
  { c with cache := dictSet c.cache key v, access_order := ao ++ [key] }

/-- `PromptCache.put` (api_handler.py lines 42-54): when the cache is full
and the key is new, first evict the oldest entry — `access_order.pop(0)`
raises `IndexError` on an empty list, modelled as `none` — then store the
key as in `putTail`. -/
def PromptCache.put {V : Type} (c : PromptCache V) (key : String) (v : V) :
    Option (PromptCache V) :=
  if c.max_size ≤ c.cache.length ∧ dictContains c.cache key = false then
    match c.access_order with
    | [] => none
    | oldest :: rest =>
        some (PromptCache.putTail
          { c with cache := dictDelete c.cache oldest, access_order := rest }
          key v)
  else some (PromptCache.putTail c key v)

/-- `PromptCache.clear` (api_handler.py lines 56-60). -/
def PromptCache.clearAll {V : Type} (c : PromptCache V) : PromptCache V :=
  { c with cache := [], access_order := [] }

/-- `PromptCache.size` (api_handler.py lines 62-64). -/
def PromptCache.size {V : Type} (c : PromptCache V) : Nat :=
  c.cache.length

/-- One client operation on the cache. -/
inductive CacheOp (V : Type) where
  | get (key : String)
  | put (key : String) (v : V)
  | clearAll
deriving DecidableEq, Repr

/-- Apply one cache operation; `none` when `put` raises `IndexError`. -/
def cacheStep {V : Type} : CacheOp V → PromptCache V → Option (PromptCache V)
  | CacheOp.get k, c => some (c.get k).2
  | CacheOp.put k v, c => c.put k v
  | CacheOp.clearAll, c => some c.clearAll

/-- Apply a sequence of cache operations. -/
def cacheRun {V : Type} : List (CacheOp V) → PromptCache V → Option (PromptCache V)
  | [], c => some c
  | op :: ops, c =>
      match cacheStep op c with
      | some c1 => cacheRun ops c1
      | none => none

/-- Structural invariant of the cache: the access order is duplicate-free,
the dict keys are duplicate-free, the access order lists exactly the
stored keys, both have the same length, and the dict never outgrows the
configured maximum. -/
def CacheInv {V : Type} (c : PromptCache V) : Prop :=
  c.access_order.Nodup ∧
  (keysOf c.cache).Nodup ∧
  (∀ k, k ∈ c.access_order ↔ (dictFind c.cache k).isSome = true) ∧
  c.cache.length = c.access_order.length ∧
  c.cache.length ≤ c.max_size

/-- Ghost state tracking, alongside the cache, the logical time of each
key's last touch (a touch is a `get` hit or any successful `put` of the
key). -/
structure LruGhost (V : Type) where
  state : PromptCache V
  touch : List (String × Nat)
  clock : Nat
deriving DecidableEq, Repr

/-- The fresh cache with empty touch history. -/
def ghostInit (V : Type) (max_size : Nat) : LruGhost V :=
  ⟨PromptCache.empty V max_size, [], 0⟩

/-- Time of the last touch of a key (`0` for a never-touched key; every
stored key has a recorded touch). -/
def touchOf {V : Type} (g : LruGhost V) (k : String) : Nat :=
  (dictFind g.touch k).getD 0

/-- One cache operation together with its touch bookkeeping: a `get` hit
and a successful `put` stamp the key with the current clock; every
operation advances the clock. -/
def ghostStep {V : Type} : CacheOp V → LruGhost V → Option (LruGhost V)
  | CacheOp.get k, g =>
      match dictFind g.state.cache k with
      | some _ => some ⟨(g.state.get k).2, dictSet g.touch k g.clock, g.clock + 1⟩
      | none => some ⟨g.state, g.touch, g.clock + 1⟩
  | CacheOp.put k v, g =>
      match g.state.put k v with
      | some c1 => some ⟨c1, dictSet g.touch k g.clock, g.clock + 1⟩
      | none => none
  | CacheOp.clearAll, g => some ⟨g.state.clearAll, g.touch, g.clock + 1⟩

/-- Apply a sequence of cache operations with touch bookkeeping. -/
def ghostRun {V : Type} : List (CacheOp V) → LruGhost V → Option (LruGhost V)
  | [], g => some g
  | op :: ops, g =>
      match ghostStep op g with
      | some g1 => ghostRun ops g1
      | none => none

/-- Invariant of the ghost state: the cache invariant, the access order
sorted by strictly increasing last-touch time (least recently touched
first), and every stored key touched in the past. -/
def GhostInv {V : Type} (g : LruGhost V) : Prop :=
  CacheInv g.state ∧
  List.Pairwise (fun a b => touchOf g a < touchOf g b) g.state.access_order ∧
  (∀ k ∈ g.state.access_order, touchOf g k < g.clock)

/-- A concrete endpoint environment: every prompt index resolves, the
backend succeeds and the output file exists. -/
def sampleEnv : TtsEnv :=
  ⟨fun _ => some "p.wav", fun _ => "up.wav", "out.wav",
    fun _ _ _ _ => Except.ok "out.wav", 1, fun _ => true, fun _ => "b64"⟩

/-- A concrete well-formed request in index mode. -/
def sampleReq : TtsRequest :=
  ⟨"hello", some "idx", none, none, 44100, "true", "false", "ras", 25, 1, 42⟩

/-- C4: tier classification is a pure total function with Short iff
L ≤ 100, Medium iff 100 < L ≤ 300, Long iff L > 300; the boundaries 100
and 300 belong to the lower tier. -/
theorem classify_tier_boundaries (L : Nat) :
    (get_semaphore L = Tier.short ↔ L ≤ 100) ∧
    (get_semaphore L = Tier.medium ↔ 100 < L ∧ L ≤ 300) ∧
    (get_semaphore L = Tier.long ↔ 300 < L) := by
  unfold get_semaphore
  by_cases h1 : L ≤ 100 <;> by_cases h2 : L ≤ 300 <;> simp [h1, h2] <;> omega

/-- Witness for C4 at the boundary lengths 100, 300 and 301. -/
theorem classify_tier_boundaries_w :
    get_semaphore 100 = Tier.short ∧ get_semaphore 300 = Tier.medium ∧
    get_semaphore 301 = Tier.long :=
  ⟨(classify_tier_boundaries 100).1.mpr (by decide),
   (classify_tier_boundaries 300).2.1.mpr (by decide),
   (classify_tier_boundaries 301).2.2.mpr (by decide)⟩

/-- Any sequence of controller actions keeps the in-flight counter
non-negative and never shrinks the lifetime counter. -/
theorem ctrlRun_nonneg_mono (ops : List CtrlOp) (s : ControllerState)
    (h : 0 ≤ s.current_tasks) :
    0 ≤ (ctrlRun ops s).current_tasks ∧
    s.total_requests ≤ (ctrlRun ops s).total_requests := by
  induction ops generalizing s with
  | nil => exact ⟨h, le_refl _⟩
  | cons op ops ih =>
    have hstep : 0 ≤ (ctrlApply op s).current_tasks ∧
        s.total_requests ≤ (ctrlApply op s).total_requests := by
      cases op with
      | acquire t => cases t <;> exact ⟨h, le_refl _⟩
      | release t => cases t <;> exact ⟨h, le_refl _⟩
      | increment =>
          exact ⟨by show (0 : Int) ≤ s.current_tasks + 1; omega,
                 by show s.total_requests ≤ s.total_requests + 1; omega⟩
      | decrement => exact ⟨le_max_left _ _, le_refl _⟩
    have hrun : ctrlRun (op :: ops) s = ctrlRun ops (ctrlApply op s) := rfl
    rw [hrun]
    have hrest := ih (ctrlApply op s) hstep.1
    exact ⟨hrest.1, le_trans hstep.2 hrest.2⟩

/-- C7: from a fresh controller, under every sequence of
increment/decrement (and semaphore) operations the in-flight counter
never becomes negative — `decrement_task` floors it at zero even with no
matching increment — and the lifetime counter is monotonically
non-decreasing under any further operations. -/
theorem counters_never_negative_and_monotone (mS mM mL : Nat) (ops : List CtrlOp) :
    0 ≤ (ctrlRun ops (ControllerState.init mS mM mL)).current_tasks ∧
    ∀ more : List CtrlOp,
      (ctrlRun ops (ControllerState.init mS mM mL)).total_requests ≤
        (ctrlRun (ops ++ more) (ControllerState.init mS mM mL)).total_requests := by
  have base := ctrlRun_nonneg_mono ops (ControllerState.init mS mM mL)
    (by simp [ControllerState.init])
  refine ⟨base.1, fun more => ?_⟩
  have happ : ctrlRun (ops ++ more) (ControllerState.init mS mM mL) =
      ctrlRun more (ctrlRun ops (ControllerState.init mS mM mL)) := by
    simp [ctrlRun, List.foldl_append]
  rw [happ]
  exact (ctrlRun_nonneg_mono more _ base.1).2

/-- C1 (evaluation at the failing input): with configured capacities
3/2/1 and one Short-tier job admitted and in flight, the reachable
controller state reports `max_concurrent_short = 2` — the semaphore's
depleted current value — instead of the configured capacity 3 the stats
contract promises. -/
theorem stats_capacity_depleted_in_flight :
    Reach 3 2 1 ⟨2, 2, 1, 1, 1⟩ ∧
    get_stats ⟨2, 2, 1, 1, 1⟩ =
      { current_tasks := 1, total_requests := 1, max_concurrent_short := 2,
        max_concurrent_medium := 2, max_concurrent_long := 1 } ∧
    (get_stats ⟨2, 2, 1, 1, 1⟩).max_concurrent_short ≠ 3 := by
  refine ⟨?_, by decide, by decide⟩
  have h1 : CtrlStep (ControllerState.init 3 2 1)
      (acquireSem Tier.short (ControllerState.init 3 2 1)) :=
    CtrlStep.acquire Tier.short _ (by decide)
  have h2 : CtrlStep (acquireSem Tier.short (ControllerState.init 3 2 1))
      (increment_task (acquireSem Tier.short (ControllerState.init 3 2 1))) :=
    CtrlStep.increment _
  have heq : increment_task (acquireSem Tier.short (ControllerState.init 3 2 1)) =
      (⟨2, 2, 1, 1, 1⟩ : ControllerState) := by decide
  exact heq ▸ Relation.ReflTransGen.head h1
    (Relation.ReflTransGen.head h2 Relation.ReflTransGen.refl)

/-- Acquire, increment, decrement, release round-trips the controller
state up to recording the request in the lifetime counter. -/
theorem roundtrip_state (t : Tier) (s : ControllerState)
    (hsem : 0 < semValue s t) (hcur : 0 ≤ s.current_tasks) :
    releaseSem t (decrement_task (increment_task (acquireSem t s))) =
      { s with total_requests := s.total_requests + 1 } := by
  have hmax : max 0 (s.current_tasks + 1 - 1) = s.current_tasks := by
    rw [Int.add_sub_cancel]; exact max_eq_right hcur
  cases t <;> (simp only [semValue] at hsem) <;>
    (simp only [releaseSem, decrement_task, increment_task, acquireSem]) <;>
    (simp [ControllerState.mk.injEq, hmax]) <;> omega

/-- C2: if the backend raises during `generate_speech`, the call returns
`(False, None, {"error": detail})`, the in-flight counter returns to its
pre-call value, every semaphore value is restored (the tier's capacity
unit is released), the same tier can admit a job again immediately, and
the lifetime counter recorded the request. -/
theorem backend_error_releases_capacity {A : Type} (text e : String) (gt : ℚ)
    (s : ControllerState)
    (hsem : 0 < semValue s (get_semaphore text.length))
    (hcur : 0 ≤ s.current_tasks) :
    (generate_speech (A := A) text (Except.error e) gt s).1 =
      ⟨false, none, InfoDict.failed e⟩ ∧
    (generate_speech (A := A) text (Except.error e) gt s).2.current_tasks =
      s.current_tasks ∧
    (∀ t, semValue (generate_speech (A := A) text (Except.error e) gt s).2 t =
      semValue s t) ∧
    0 < semValue (generate_speech (A := A) text (Except.error e) gt s).2
      (get_semaphore text.length) ∧
    (generate_speech (A := A) text (Except.error e) gt s).2.total_requests =
      s.total_requests + 1 := by
  have hstate : (generate_speech (A := A) text (Except.error e) gt s).2 =
      { s with total_requests := s.total_requests + 1 } :=
    roundtrip_state (get_semaphore text.length) s hsem hcur
  have hsv : ∀ t, semValue { s with total_requests := s.total_requests + 1 } t =
      semValue s t := fun t => by cases t <;> rfl
  refine ⟨rfl, ?_, ?_, ?_, ?_⟩
  · rw [hstate]
  · intro t; rw [hstate]; exact hsv t
  · rw [hstate, hsv]; exact hsem
  · rw [hstate]

/-- Witness for C2: a Short-tier job on a fresh 3/2/1 controller whose
backend raises. -/
theorem backend_error_releases_capacity_w :
    0 < semValue (ControllerState.init 3 2 1) (get_semaphore ("hi" : String).length) ∧
    (0 : Int) ≤ (ControllerState.init 3 2 1).current_tasks ∧
    (generate_speech (A := Unit) "hi" (Except.error "boom") 1
        (ControllerState.init 3 2 1)).2.current_tasks =
      (ControllerState.init 3 2 1).current_tasks :=
  ⟨by decide, by decide,
    (backend_error_releases_capacity (A := Unit) "hi" "boom" 1
      (ControllerState.init 3 2 1) (by decide) (by decide)).2.1⟩

/-- C3: a request whose text is empty or all-whitespace is rejected with
`EMPTY_TEXT` and the controller state — semaphores and both counters — is
untouched. -/
theorem empty_input_rejected (env : TtsEnv) (req : TtsRequest) (s : ControllerState)
    (h : req.input_text = "" ∨ ∀ c ∈ req.input_text.data, c.isWhitespace) :
    (generate_tts env req s).1 =
      ⟨false, "Input text is empty", none, none, none, some "EMPTY_TEXT"⟩ ∧
    (generate_tts env req s).2 = s := by
  have hcond : req.input_text = "" ∨ (pyStrip req.input_text).length = 0 := by
    rcases h with h | h
    · exact Or.inl h
    · right
      have hnil : req.input_text.data.dropWhile Char.isWhitespace = [] :=
        List.dropWhile_eq_nil_iff.mpr h
      simp [pyStrip, hnil, String.length]
  unfold generate_tts
  rw [if_pos hcond]
  exact ⟨rfl, rfl⟩

/-- Witness for C3: a single-space request against a fresh controller. -/
theorem empty_input_rejected_w :
    (({ sampleReq with input_text := " " } : TtsRequest).input_text = "" ∨
      ∀ c ∈ ({ sampleReq with input_text := " " } : TtsRequest).input_text.data,
        c.isWhitespace) ∧
    (generate_tts sampleEnv { sampleReq with input_text := " " }
        (ControllerState.init 3 2 1)).2 = ControllerState.init 3 2 1 :=
  ⟨by decide,
    (empty_input_rejected sampleEnv { sampleReq with input_text := " " }
      (ControllerState.init 3 2 1) (by decide)).2⟩

/-- C5 (counterexample): with `sample_method = "ras"` the converter does
derive the output top-k from the legacy sampling magnitude whenever one is
supplied: sampling 30 yields top-k 30 and sampling 31 yields top-k 31. -/
theorem ras_top_k_derived_from_sampling :
    (convert_glm_to_indextts
        { GlmParams.empty with sample_method := some "ras", sampling := some 30 }).top_k =
      some 30 ∧
    (convert_glm_to_indextts
        { GlmParams.empty with sample_method := some "ras", sampling := some 31 }).top_k =
      some 31 ∧
    (convert_glm_to_indextts
        { GlmParams.empty with sample_method := some "ras", sampling := some 30 }).top_k ≠
      none :=
  ⟨by decide, by decide, by decide⟩

/-- C5 (amended): `topk` enables sampling and sets top-k to the legacy
sampling magnitude (default 25); `ras` enables sampling and passes the
legacy sampling magnitude through as top-k exactly when one is supplied
(no top-k otherwise); `beam_size` always maps to `num_beams`. -/
theorem sample_method_translation (params : GlmParams) :
    (strToLower (params.sample_method.getD "ras") = "topk" →
      (convert_glm_to_indextts params).do_sample = some true ∧
      (convert_glm_to_indextts params).top_k = some (params.sampling.getD 25)) ∧
    (strToLower (params.sample_method.getD "ras") = "ras" →
      (convert_glm_to_indextts params).do_sample = some true ∧
      (convert_glm_to_indextts params).top_k = params.sampling) ∧
    (convert_glm_to_indextts params).num_beams = params.beam_size := by
  unfold convert_glm_to_indextts
  refine ⟨fun h => ?_, fun h => ?_, rfl⟩
  · simp [h]
  · cases hs : params.sampling <;> simp [h, hs]

/-- Witness for C5 (amended) at `{sample_method: "topk", sampling: 25}`
and `{sample_method: "ras", beam_size: 4}`. -/
theorem sample_method_translation_w :
    (convert_glm_to_indextts
        { GlmParams.empty with sample_method := some "topk", sampling := some 25 }).top_k =
      some 25 ∧
    (convert_glm_to_indextts
        { GlmParams.empty with sample_method := some "ras", beam_size := some 4 }).top_k =
      none ∧
    (convert_glm_to_indextts
        { GlmParams.empty with sample_method := some "ras", beam_size := some 4 }).num_beams =
      some 4 :=
  ⟨((sample_method_translation
      { GlmParams.empty with sample_method := some "topk", sampling := some 25 }).1
      (by decide)).2,
   ((sample_method_translation
      { GlmParams.empty with sample_method := some "ras", beam_size := some 4 }).2.1
      (by decide)).2,
   (sample_method_translation
      { GlmParams.empty with sample_method := some "ras", beam_size := some 4 }).2.2⟩

/-- C8: each of the five numeric generation parameters takes its
documented default (temperature 0.8, top-p 0.8, repetition penalty 10.0,
length penalty 0.0, max mel tokens 1500) when the legacy map omits it,
and the supplied value when it is present. -/
theorem numeric_defaults (params : GlmParams) :
    (params.temperature = none →
      (convert_glm_to_indextts params).temperature = 0.8) ∧
    (∀ x, params.temperature = some x →
      (convert_glm_to_indextts params).temperature = x) ∧
    (params.top_p = none → (convert_glm_to_indextts params).top_p = 0.8) ∧
    (∀ x, params.top_p = some x → (convert_glm_to_indextts params).top_p = x) ∧
    (params.repetition_penalty = none →
      (convert_glm_to_indextts params).repetition_penalty = 10.0) ∧
    (∀ x, params.repetition_penalty = some x →
      (convert_glm_to_indextts params).repetition_penalty = x) ∧
    (params.length_penalty = none →
      (convert_glm_to_indextts params).length_penalty = 0.0) ∧
    (∀ x, params.length_penalty = some x →
      (convert_glm_to_indextts params).length_penalty = x) ∧
    (params.max_mel_tokens = none →
      (convert_glm_to_indextts params).max_mel_tokens = 1500) ∧
    (∀ x, params.max_mel_tokens = some x →
      (convert_glm_to_indextts params).max_mel_tokens = x) := by
  unfold convert_glm_to_indextts
  exact ⟨fun h => by simp [h], fun x h => by simp [h],
    fun h => by simp [h], fun x h => by simp [h],
    fun h => by simp [h], fun x h => by simp [h],
    fun h => by simp [h], fun x h => by simp [h],
    fun h => by simp [h], fun x h => by simp [h]⟩

/-- Witness for C8 at the empty legacy map and at one supplied value. -/
theorem numeric_defaults_w :
    (convert_glm_to_indextts GlmParams.empty).temperature = 0.8 ∧
    (convert_glm_to_indextts GlmParams.empty).max_mel_tokens = 1500 ∧
    (convert_glm_to_indextts { GlmParams.empty with temperature := some 1 }).temperature = 1 :=
  ⟨(numeric_defaults GlmParams.empty).1 rfl,
   (numeric_defaults GlmParams.empty).2.2.2.2.2.2.2.2.1 rfl,
   (numeric_defaults { GlmParams.empty with temperature := some 1 }).2.1 1 rfl⟩

/-- A successful `generate_speech` call always carries the constant-24000
info dictionary. -/
theorem generate_speech_success_info {A : Type} (text : String)
    (b : Except String A) (gt : ℚ) (s : ControllerState)
    (h : (generate_speech text b gt s).1.success = true) :
    (generate_speech text b gt s).1.info = InfoDict.ok gt text.length 24000 := by
  cases b with
  | ok a => rfl
  | error e => exact absurd h (by simp [generate_speech])

/-- Every prompt-resolution failure response is a non-success response. -/
theorem promptPathOf_error_not_success (env : TtsEnv) (req : TtsRequest)
    (r : TtsResponse) (h : promptPathOf env req = Except.error r) :
    r.success = false := by
  simp only [promptPathOf] at h
  split at h
  · split at h
    · split at h
      · exact absurd h (by simp)
      · injection h with h1; rw [← h1]
    · split at h
      · split at h
        · injection h with h1; rw [← h1]
        · exact absurd h (by simp)
      · injection h with h1; rw [← h1]
  · split at h
    · exact absurd h (by simp)
    · injection h with h1; rw [← h1]

/-- C10: a successful endpoint response always reports sample rate 24000;
the response and final state are independent of the request's
`sample_rate` field (it is never forwarded); and the handler's success
info dictionary carries the constant 24000. -/
theorem sample_rate_constant (env : TtsEnv) (req : TtsRequest)
    (s : ControllerState) (x : Int) :
    ((generate_tts env req s).1.success = true →
      (generate_tts env req s).1.sample_rate = some 24000) ∧
    generate_tts env { req with sample_rate := x } s = generate_tts env req s ∧
    ∀ (A : Type) (text : String) (a : A) (gt : ℚ) (s2 : ControllerState),
      (generate_speech text (Except.ok a) gt s2).1.info =
        InfoDict.ok gt text.length 24000 := by
  refine ⟨?_, by cases req; rfl, fun A text a gt s2 => rfl⟩
  simp only [generate_tts]
  split
  · intro hs; simp at hs
  · next hne =>
    split
    · next r hr =>
      intro hs
      have hfail := promptPathOf_error_not_success env req r hr
      simp [hfail] at hs
    · next pp hpp =>
      split
      · next p hres =>
        split
        · next hcond =>
            intro _
            simp only [Bool.and_eq_true] at hcond
            have hsucc := hcond.1.1
            have hinfo := generate_speech_success_info req.input_text _
              env.generation_time s hsucc
            simp [hinfo, InfoDict.getSampleRate]
        · intro hs; simp at hs
      · intro hs; simp at hs

/-- Witness for C10: a fully successful request through `sampleEnv`. -/
theorem sample_rate_constant_w :
    (generate_tts sampleEnv sampleReq (ControllerState.init 3 2 1)).1.success = true ∧
    (generate_tts sampleEnv sampleReq (ControllerState.init 3 2 1)).1.sample_rate =
      some 24000 :=
  ⟨by decide,
    (sample_rate_constant sampleEnv sampleReq (ControllerState.init 3 2 1) 0).1
      (by decide)⟩

/-- `keysOf` on the empty dict. -/
theorem keysOf_nil {V : Type} : keysOf ([] : List (String × V)) = [] := rfl

/-- `keysOf` on a cons cell. -/
theorem keysOf_cons {V : Type} (kv : String × V) (rest : List (String × V)) :
    keysOf (kv :: rest) = kv.1 :: keysOf rest := rfl

/-- A key is found iff it is among the dict's keys. -/
theorem dictFind_isSome_iff_mem {V : Type} (c : List (String × V)) (k : String) :
    (dictFind c k).isSome = true ↔ k ∈ keysOf c := by
  induction c with
  | nil => simp [dictFind, keysOf_nil]
  | cons kv rest ih =>
    by_cases h : kv.1 = k
    · simp [dictFind, keysOf_cons, List.mem_cons, h]
    · have h' : ¬(k = kv.1) := fun hq => h hq.symm
      simp [dictFind, keysOf_cons, List.mem_cons, h, h', ih]

/-- An absent key is not found. -/
theorem dictFind_eq_none_of_not_mem {V : Type} {c : List (String × V)} {k : String}
    (h : k ∉ keysOf c) : dictFind c k = none := by
  cases hf : dictFind c k with
  | none => rfl
  | some v =>
      exact absurd ((dictFind_isSome_iff_mem c k).mp (by simp [hf])) h

/-- Head-hit equation for `dictFind`. -/
theorem dictFind_cons_self {V : Type} {k0 k : String} (v0 : V)
    (rest : List (String × V)) (h : k0 = k) :
    dictFind ((k0, v0) :: rest) k = some v0 := by
  simp [dictFind, h]

/-- Head-miss equation for `dictFind`. -/
theorem dictFind_cons_ne {V : Type} {k0 k : String} (v0 : V)
    (rest : List (String × V)) (h : k0 ≠ k) :
    dictFind ((k0, v0) :: rest) k = dictFind rest k := by
  simp [dictFind, h]

/-- Head-hit equation for `dictSet`. -/
theorem dictSet_cons_self {V : Type} {k0 k : String} (v0 : V)
    (rest : List (String × V)) (v : V) (h : k0 = k) :
    dictSet ((k0, v0) :: rest) k v = (k, v) :: rest := by
  simp [dictSet, h]

/-- Head-miss equation for `dictSet`. -/
theorem dictSet_cons_ne {V : Type} {k0 k : String} (v0 : V)
    (rest : List (String × V)) (v : V) (h : k0 ≠ k) :
    dictSet ((k0, v0) :: rest) k v = (k0, v0) :: dictSet rest k v := by
  simp [dictSet, h]

/-- Head-hit equation for `dictDelete`. -/
theorem dictDelete_cons_self {V : Type} {k0 k : String} (v0 : V)
    (rest : List (String × V)) (h : k0 = k) :
    dictDelete ((k0, v0) :: rest) k = rest := by
  simp [dictDelete, h]

/-- Head-miss equation for `dictDelete`. -/
theorem dictDelete_cons_ne {V : Type} {k0 k : String} (v0 : V)
    (rest : List (String × V)) (h : k0 ≠ k) :
    dictDelete ((k0, v0) :: rest) k = (k0, v0) :: dictDelete rest k := by
  simp [dictDelete, h]

/-- Head-hit equation for `listRemove`. -/
theorem listRemove_cons_self {k0 k : String} (rest : List String) (h : k0 = k) :
    listRemove (k0 :: rest) k = rest := by
  simp [listRemove, h]

/-- Head-miss equation for `listRemove`. -/
theorem listRemove_cons_ne {k0 k : String} (rest : List String) (h : k0 ≠ k) :
    listRemove (k0 :: rest) k = k0 :: listRemove rest k := by
  simp [listRemove, h]

/-- `dictSet` stores the value under the key. -/
theorem dictFind_dictSet_self {V : Type} (c : List (String × V)) (k : String) (v : V) :
    dictFind (dictSet c k v) k = some v := by
  induction c with
  | nil => simp [dictSet, dictFind]
  | cons kv rest ih =>
      obtain ⟨k0, v0⟩ := kv
      by_cases hh : k0 = k
      · rw [dictSet_cons_self v0 rest v hh, dictFind_cons_self v rest rfl]
      · rw [dictSet_cons_ne v0 rest v hh, dictFind_cons_ne v0 _ hh, ih]

/-- `dictSet` leaves other keys alone. -/
theorem dictFind_dictSet_ne {V : Type} (c : List (String × V)) {k k' : String}
    (v : V) (h : k' ≠ k) : dictFind (dictSet c k v) k' = dictFind c k' := by
  have hks : k ≠ k' := fun hq => h hq.symm
  induction c with
  | nil => simp [dictSet, dictFind, hks]
  | cons kv rest ih =>
      obtain ⟨k0, v0⟩ := kv
      by_cases hh : k0 = k
      · rw [dictSet_cons_self v0 rest v hh, dictFind_cons_ne v rest hks,
          dictFind_cons_ne v0 rest (hh ▸ hks)]
      · rw [dictSet_cons_ne v0 rest v hh]
        by_cases hk : k0 = k'
        · rw [dictFind_cons_self _ _ hk, dictFind_cons_self _ _ hk]
        · rw [dictFind_cons_ne _ _ hk, dictFind_cons_ne _ _ hk, ih]

/-- Key membership after `dictSet`. -/
theorem mem_keysOf_dictSet {V : Type} (c : List (String × V)) (k k' : String) (v : V) :
    k' ∈ keysOf (dictSet c k v) ↔ k' ∈ keysOf c ∨ k' = k := by
  induction c with
  | nil => simp [dictSet, keysOf_cons, keysOf_nil]
  | cons kv rest ih =>
      obtain ⟨k0, v0⟩ := kv
      by_cases hh : k0 = k
      · rw [dictSet_cons_self v0 rest v hh, keysOf_cons, keysOf_cons]
        simp only [List.mem_cons, hh]
        tauto
      · rw [dictSet_cons_ne v0 rest v hh, keysOf_cons, keysOf_cons]
        simp only [List.mem_cons, ih]
        tauto

/-- `dictSet` keeps the keys duplicate-free. -/
theorem keysOf_dictSet_nodup {V : Type} (c : List (String × V)) (k : String) (v : V)
    (h : (keysOf c).Nodup) : (keysOf (dictSet c k v)).Nodup := by
  induction c with
  | nil => simp [dictSet, keysOf_cons, keysOf_nil]
  | cons kv rest ih =>
      obtain ⟨k0, v0⟩ := kv
      rw [keysOf_cons, List.nodup_cons] at h
      by_cases hh : k0 = k
      · rw [dictSet_cons_self v0 rest v hh, keysOf_cons, List.nodup_cons]
        exact ⟨hh ▸ h.1, h.2⟩
      · rw [dictSet_cons_ne v0 rest v hh, keysOf_cons, List.nodup_cons]
        refine ⟨fun hmem => ?_, ih h.2⟩
        rcases (mem_keysOf_dictSet rest k k0 v).mp hmem with hmem | hmem
        · exact h.1 hmem
        · exact hh hmem

/-- `dictSet` of a present key keeps the dict size. -/
theorem length_dictSet_mem {V : Type} (c : List (String × V)) (k : String) (v : V)
    (h : k ∈ keysOf c) : (dictSet c k v).length = c.length := by
  induction c with
  | nil => simp [keysOf_nil] at h
  | cons kv rest ih =>
      obtain ⟨k0, v0⟩ := kv
      by_cases hh : k0 = k
      · rw [dictSet_cons_self v0 rest v hh]
        simp
      · rw [keysOf_cons, List.mem_cons] at h
        rcases h with h | h
        · exact absurd h.symm hh
        · rw [dictSet_cons_ne v0 rest v hh]
          simp [ih h]

/-- `dictSet` of a new key grows the dict by one. -/
theorem length_dictSet_not_mem {V : Type} (c : List (String × V)) (k : String) (v : V)
    (h : k ∉ keysOf c) : (dictSet c k v).length = c.length + 1 := by
  induction c with
  | nil => simp [dictSet]
  | cons kv rest ih =>
      obtain ⟨k0, v0⟩ := kv
      rw [keysOf_cons, List.mem_cons] at h
      push_neg at h
      have hh : k0 ≠ k := fun hq => h.1 hq.symm
      rw [dictSet_cons_ne v0 rest v hh]
      simp [ih h.2]

/-- `dictDelete` is a sublist of the original dict. -/
theorem dictDelete_sublist {V : Type} (c : List (String × V)) (k : String) :
    List.Sublist (dictDelete c k) c := by
  induction c with
  | nil => simp [dictDelete]
  | cons kv rest ih =>
      by_cases hh : kv.1 = k
      · simp only [dictDelete, if_pos hh]
        exact List.sublist_cons_self kv rest
      · simp only [dictDelete, if_neg hh]
        exact List.Sublist.cons₂ kv ih

/-- With duplicate-free keys, the deleted key is gone. -/
theorem dictFind_dictDelete_self {V : Type} {c : List (String × V)} (k : String)
    (h : (keysOf c).Nodup) : dictFind (dictDelete c k) k = none := by
  induction c with
  | nil => simp [dictDelete, dictFind]
  | cons kv rest ih =>
      obtain ⟨k0, v0⟩ := kv
      rw [keysOf_cons, List.nodup_cons] at h
      by_cases hh : k0 = k
      · rw [dictDelete_cons_self v0 rest hh]
        exact dictFind_eq_none_of_not_mem (hh ▸ h.1)
      · rw [dictDelete_cons_ne v0 rest hh, dictFind_cons_ne v0 _ hh, ih h.2]

/-- `dictDelete` leaves other keys alone. -/
theorem dictFind_dictDelete_ne {V : Type} (c : List (String × V)) {k k' : String}
    (h : k' ≠ k) : dictFind (dictDelete c k) k' = dictFind c k' := by
  induction c with
  | nil => simp [dictDelete]
  | cons kv rest ih =>
      obtain ⟨k0, v0⟩ := kv
      by_cases hh : k0 = k
      · have hne : k0 ≠ k' := fun hq => h (hq.symm.trans hh)
        rw [dictDelete_cons_self v0 rest hh, dictFind_cons_ne v0 rest hne]
      · rw [dictDelete_cons_ne v0 rest hh]
        by_cases hk : k0 = k'
        · rw [dictFind_cons_self _ _ hk, dictFind_cons_self _ _ hk]
        · rw [dictFind_cons_ne _ _ hk, dictFind_cons_ne _ _ hk, ih]

/-- With duplicate-free keys, key membership after `dictDelete`. -/
theorem mem_keysOf_dictDelete {V : Type} {c : List (String × V)} (k k' : String)
    (h : (keysOf c).Nodup) :
    k' ∈ keysOf (dictDelete c k) ↔ k' ∈ keysOf c ∧ k' ≠ k := by
  constructor
  · intro hmem
    have hsub : k' ∈ keysOf c :=
      (List.Sublist.map Prod.fst (dictDelete_sublist c k)).mem hmem
    refine ⟨hsub, fun hk => ?_⟩
    subst hk
    have := (dictFind_isSome_iff_mem _ _).mpr hmem
    rw [dictFind_dictDelete_self k' h] at this
    simp at this
  · rintro ⟨hmem, hne⟩
    have := (dictFind_isSome_iff_mem c k').mpr hmem
    rw [← dictFind_dictDelete_ne c hne] at this
    exact (dictFind_isSome_iff_mem _ _).mp this

/-- Deleting a present key shrinks the dict by one. -/
theorem length_dictDelete_mem {V : Type} {c : List (String × V)} {k : String}
    (h : k ∈ keysOf c) : (dictDelete c k).length + 1 = c.length := by
  induction c with
  | nil => simp [keysOf] at h
  | cons kv rest ih =>
      by_cases hh : kv.1 = k
      · simp [dictDelete, hh]
      · simp only [keysOf, List.map_cons, List.mem_cons] at h
        rcases h with h | h
        · exact absurd h.symm hh
        · simp [dictDelete, hh, ih h]

/-- `listRemove` is a sublist of the original list. -/
theorem listRemove_sublist (l : List String) (k : String) :
    List.Sublist (listRemove l k) l := by
  induction l with
  | nil => simp [listRemove]
  | cons x rest ih =>
      by_cases hh : x = k
      · simp only [listRemove, if_pos hh]
        exact List.sublist_cons_self x rest
      · simp only [listRemove, if_neg hh]
        exact List.Sublist.cons₂ x ih

/-- On a duplicate-free list, membership after `listRemove`. -/
theorem mem_listRemove {l : List String} (k k' : String) (h : l.Nodup) :
    k' ∈ listRemove l k ↔ k' ∈ l ∧ k' ≠ k := by
  induction l with
  | nil => simp [listRemove]
  | cons x rest ih =>
      rw [List.nodup_cons] at h
      by_cases hh : x = k
      · subst hh
        rw [listRemove_cons_self rest rfl]
        simp only [List.mem_cons]
        constructor
        · intro hmem
          exact ⟨Or.inr hmem, fun hk => h.1 (hk ▸ hmem)⟩
        · rintro ⟨hmem | hmem, hne⟩
          · exact absurd hmem hne
          · exact hmem
      · rw [listRemove_cons_ne rest hh]
        simp only [List.mem_cons, ih h.2]
        constructor
        · rintro (hk | ⟨hmem, hne⟩)
          · exact ⟨Or.inl hk, fun hq => hh (hk ▸ hq)⟩
          · exact ⟨Or.inr hmem, hne⟩
        · rintro ⟨hk | hmem, hne⟩
          · exact Or.inl hk
          · exact Or.inr ⟨hmem, hne⟩

/-- Removing a present element shrinks the list by one. -/
theorem length_listRemove_mem {l : List String} {k : String} (h : k ∈ l) :
    (listRemove l k).length + 1 = l.length := by
  induction l with
  | nil => simp at h
  | cons x rest ih =>
      by_cases hh : x = k
      · simp [listRemove, hh]
      · rcases List.mem_cons.mp h with h1 | h1
        · exact absurd h1.symm hh
        · simp [listRemove, hh, ih h1]

/-- `putTail` on a key not in the dict appends the binding and the key. -/
theorem putTail_new {V : Type} (c : PromptCache V) (k : String) (v : V)
    (h : dictContains c.cache k = false) :
    c.putTail k v =
      ⟨c.max_size, dictSet c.cache k v, c.access_order ++ [k]⟩ := by
  simp [PromptCache.putTail, h]

/-- `putTail` on a key already in the dict refreshes its recency. -/
theorem putTail_existing {V : Type} (c : PromptCache V) (k : String) (v : V)
    (h : dictContains c.cache k = true) :
    c.putTail k v =
      ⟨c.max_size, dictSet c.cache k v, listRemove c.access_order k ++ [k]⟩ := by
  simp [PromptCache.putTail, h]

/-- `put` without the eviction condition runs `putTail` directly. -/
theorem put_no_evict {V : Type} (c : PromptCache V) (k : String) (v : V)
    (h : ¬(c.max_size ≤ c.cache.length ∧ dictContains c.cache k = false)) :
    c.put k v = some (c.putTail k v) := by
  simp [PromptCache.put, h]

/-- `put` under the eviction condition pops the head of the access order
and deletes it before running `putTail`. -/
theorem put_evict {V : Type} (c : PromptCache V) (k : String) (v : V)
    (oldest : String) (rest : List String)
    (h1 : c.max_size ≤ c.cache.length) (h2 : dictContains c.cache k = false)
    (hao : c.access_order = oldest :: rest) :
    c.put k v = some (PromptCache.putTail
      ⟨c.max_size, dictDelete c.cache oldest, rest⟩ k v) := by
  rw [PromptCache.put, if_pos ⟨h1, h2⟩, hao]

/-- `put` under the eviction condition with an empty access order raises
(`access_order.pop(0)` on an empty list). -/
theorem put_evict_empty {V : Type} (c : PromptCache V) (k : String) (v : V)
    (h1 : c.max_size ≤ c.cache.length) (h2 : dictContains c.cache k = false)
    (hao : c.access_order = []) : c.put k v = none := by
  rw [PromptCache.put, if_pos ⟨h1, h2⟩, hao]

/-- The empty cache satisfies the cache invariant. -/
theorem cacheInv_empty (V : Type) (M : Nat) : CacheInv (PromptCache.empty V M) :=
  ⟨List.nodup_nil, List.nodup_nil, fun k => by simp [PromptCache.empty, dictFind],
   rfl, by simp [PromptCache.empty]⟩

/-- `clear` re-establishes the cache invariant. -/
theorem cacheInv_clearAll {V : Type} (c : PromptCache V) :
    CacheInv c.clearAll :=
  ⟨List.nodup_nil, List.nodup_nil, fun k => by simp [PromptCache.clearAll, dictFind],
   rfl, by simp [PromptCache.clearAll]⟩

/-- `get` preserves the cache invariant. -/
theorem cacheInv_get {V : Type} (c : PromptCache V) (k : String) (h : CacheInv c) :
    CacheInv (c.get k).2 := by
  obtain ⟨hao, hkeys, hiff, hlen, hmaxs⟩ := h
  cases hf : dictFind c.cache k with
  | none =>
      have hid : (c.get k).2 = c := by unfold PromptCache.get; rw [hf]
      rw [hid]
      exact ⟨hao, hkeys, hiff, hlen, hmaxs⟩
  | some v =>
      have hrw : (c.get k).2 =
          { c with access_order := listRemove c.access_order k ++ [k] } := by
        unfold PromptCache.get; rw [hf]
      have hkmem : k ∈ c.access_order := (hiff k).mpr (by simp [hf])
      rw [hrw]
      refine ⟨?_, hkeys, ?_, ?_, hmaxs⟩
      · refine List.Nodup.append (List.Sublist.nodup (listRemove_sublist _ _) hao)
          (List.nodup_singleton k) ?_
        intro a ha hb
        rw [List.mem_singleton] at hb
        exact ((mem_listRemove k a hao).mp ha).2 hb
      · intro k'
        by_cases hk : k' = k
        · subst hk
          simp [List.mem_append, hf]
        · simp only [List.mem_append, List.mem_singleton, hk, or_false,
            mem_listRemove k k' hao]
          rw [← hiff k']
          exact ⟨fun ha => ha.1, fun ha => ⟨ha, hk⟩⟩
      · rw [List.length_append, List.length_singleton, length_listRemove_mem hkmem]
        exact hlen

/-- `put`, when it succeeds, preserves the cache invariant. -/
theorem cacheInv_put {V : Type} {c c' : PromptCache V} {k : String} {v : V}
    (hput : c.put k v = some c') (h : CacheInv c) : CacheInv c' := by
  obtain ⟨hao, hkeys, hiff, hlen, hmaxs⟩ := h
  by_cases hcond : c.max_size ≤ c.cache.length ∧ dictContains c.cache k = false
  · -- eviction branch
    have hknomem : k ∉ keysOf c.cache := by
      intro hm
      have := (dictFind_isSome_iff_mem c.cache k).mpr hm
      rw [dictContains] at hcond
      rw [this] at hcond
      exact absurd hcond.2 (by simp)
    have hknotao : k ∉ c.access_order := by
      intro hm
      exact hknomem ((dictFind_isSome_iff_mem c.cache k).mp ((hiff k).mp hm))
    cases hao2 : c.access_order with
    | nil =>
        rw [put_evict_empty c k v hcond.1 hcond.2 hao2] at hput
        exact absurd hput (by simp)
    | cons oldest rest =>
        rw [put_evict c k v oldest rest hcond.1 hcond.2 hao2] at hput
        have holdmem : oldest ∈ c.access_order := by
          rw [hao2]; exact List.mem_cons_self oldest rest
        have holdkeys : oldest ∈ keysOf c.cache :=
          (dictFind_isSome_iff_mem _ _).mp ((hiff oldest).mp holdmem)
        have hANodup : (oldest :: rest).Nodup := hao2 ▸ hao
        have hrestnodup : rest.Nodup := (List.nodup_cons.mp hANodup).2
        have holdnrest : oldest ∉ rest := (List.nodup_cons.mp hANodup).1
        have hknorest : k ∉ rest := fun hm => hknotao (by
          rw [hao2]; exact List.mem_cons_of_mem _ hm)
        have hkeys1 : (keysOf (dictDelete c.cache oldest)).Nodup :=
          List.Sublist.nodup (List.Sublist.map Prod.fst (dictDelete_sublist _ _)) hkeys
        have hkno1 : dictContains (dictDelete c.cache oldest) k = false := by
          have hnm : k ∉ keysOf (dictDelete c.cache oldest) := by
            intro hm
            exact hknomem ((mem_keysOf_dictDelete oldest k hkeys).mp hm).1
          simp [dictContains, dictFind_eq_none_of_not_mem hnm]
        rw [putTail_new _ k v hkno1] at hput
        injection hput with hput
        subst hput
        refine ⟨?_, ?_, ?_, ?_, ?_⟩
        · exact List.Nodup.append hrestnodup (List.nodup_singleton k)
            (fun a ha hb => hknorest ((List.mem_singleton.mp hb) ▸ ha))
        · exact keysOf_dictSet_nodup _ k v hkeys1
        · intro k'
          by_cases hk : k' = k
          · subst hk
            simp [List.mem_append, dictFind_dictSet_self]
          · rw [List.mem_append, List.mem_singleton]
            simp only [hk, or_false]
            rw [show dictFind (dictSet (dictDelete c.cache oldest) k v) k' =
                dictFind (dictDelete c.cache oldest) k' from
              dictFind_dictSet_ne _ v hk]
            by_cases ho : k' = oldest
            · subst ho
              rw [dictFind_dictDelete_self k' hkeys]
              simp [holdnrest]
            · rw [dictFind_dictDelete_ne _ ho, ← hiff k', hao2, List.mem_cons]
              simp [ho]
        · have h1 : k ∉ keysOf (dictDelete c.cache oldest) := by
            intro hm
            exact hknomem ((mem_keysOf_dictDelete oldest k hkeys).mp hm).1
          rw [length_dictSet_not_mem _ k v h1]
          have h2 := length_dictDelete_mem holdkeys
          have h3 : c.cache.length = rest.length + 1 := by
            rw [hlen, hao2]; simp
          simp only [List.length_append, List.length_singleton]
          omega
        · have h1 : k ∉ keysOf (dictDelete c.cache oldest) := by
            intro hm
            exact hknomem ((mem_keysOf_dictDelete oldest k hkeys).mp hm).1
          show (dictSet (dictDelete c.cache oldest) k v).length ≤ c.max_size
          rw [length_dictSet_not_mem _ k v h1]
          have h2 := length_dictDelete_mem holdkeys
          omega
  · -- no eviction
    rw [put_no_evict c k v hcond] at hput
    injection hput with hput
    subst hput
    cases hc : dictContains c.cache k with
    | true =>
        rw [putTail_existing c k v hc]
        have hkkeys : k ∈ keysOf c.cache := by
          rw [dictContains] at hc
          exact (dictFind_isSome_iff_mem _ _).mp hc
        have hkmem : k ∈ c.access_order := by
          rw [dictContains] at hc
          exact (hiff k).mpr hc
        refine ⟨?_, keysOf_dictSet_nodup _ k v hkeys, ?_, ?_, ?_⟩
        · refine List.Nodup.append (List.Sublist.nodup (listRemove_sublist _ _) hao)
            (List.nodup_singleton k) ?_
          intro a ha hb
          rw [List.mem_singleton] at hb
          exact ((mem_listRemove k a hao).mp ha).2 hb
        · intro k'
          by_cases hk : k' = k
          · subst hk
            simp [List.mem_append, dictFind_dictSet_self]
          · rw [List.mem_append, List.mem_singleton]
            simp only [hk, or_false, mem_listRemove k k' hao]
            rw [show dictFind (dictSet c.cache k v) k' = dictFind c.cache k' from
              dictFind_dictSet_ne _ v hk, ← hiff k']
            exact ⟨fun ha => ha.1, fun ha => ⟨ha, hk⟩⟩
        · rw [length_dictSet_mem _ k v hkkeys, List.length_append,
            List.length_singleton, length_listRemove_mem hkmem]
          exact hlen
        · rw [length_dictSet_mem _ k v hkkeys]
          exact hmaxs
    | false =>
        rw [putTail_new c k v hc]
        have hknomem : k ∉ keysOf c.cache := by
          intro hm
          have := (dictFind_isSome_iff_mem c.cache k).mpr hm
          rw [dictContains] at hc
          rw [this] at hc
          exact absurd hc (by simp)
        have hknotao : k ∉ c.access_order := by
          intro hm
          exact hknomem ((dictFind_isSome_iff_mem c.cache k).mp ((hiff k).mp hm))
        have hlt : c.cache.length < c.max_size := by
          push_neg at hcond
          rcases Nat.lt_or_ge c.cache.length c.max_size with hl | hl
          · exact hl
          · exact absurd hc (by simp [hcond hl])
        refine ⟨?_, keysOf_dictSet_nodup _ k v hkeys, ?_, ?_, ?_⟩
        · exact List.Nodup.append hao (List.nodup_singleton k)
            (fun a ha hb => hknotao ((List.mem_singleton.mp hb) ▸ ha))
        · intro k'
          by_cases hk : k' = k
          · subst hk
            simp [List.mem_append, dictFind_dictSet_self]
          · rw [List.mem_append, List.mem_singleton]
            simp only [hk, or_false]
            rw [show dictFind (dictSet c.cache k v) k' = dictFind c.cache k' from
              dictFind_dictSet_ne _ v hk, ← hiff k']
        · rw [length_dictSet_not_mem _ k v hknomem, List.length_append,
            List.length_singleton, hlen]
        · show (dictSet c.cache k v).length ≤ c.max_size
          rw [length_dictSet_not_mem _ k v hknomem]
          omega

/-- A successful `put` preserves the configured maximum. -/
theorem put_max_size {V : Type} {c c' : PromptCache V} {k : String} {v : V}
    (hput : c.put k v = some c') : c'.max_size = c.max_size := by
  by_cases hcond : c.max_size ≤ c.cache.length ∧ dictContains c.cache k = false
  · cases hao : c.access_order with
    | nil =>
        rw [put_evict_empty c k v hcond.1 hcond.2 hao] at hput
        exact absurd hput (by simp)
    | cons oldest rest =>
        rw [put_evict c k v oldest rest hcond.1 hcond.2 hao] at hput
        injection hput with hput
        subst hput
        rfl
  · rw [put_no_evict c k v hcond] at hput
    injection hput with hput
    subst hput
    rfl

/-- `get` preserves the configured maximum. -/
theorem get_max_size {V : Type} (c : PromptCache V) (k : String) :
    (c.get k).2.max_size = c.max_size := by
  cases hf : dictFind c.cache k with
  | none =>
      have hid : (c.get k).2 = c := by unfold PromptCache.get; rw [hf]
      rw [hid]
  | some v =>
      have hrw : (c.get k).2 =
          { c with access_order := listRemove c.access_order k ++ [k] } := by
        unfold PromptCache.get; rw [hf]
      rw [hrw]

/-- One successful step preserves the invariant and the maximum. -/
theorem cacheStep_inv {V : Type} {op : CacheOp V} {c c' : PromptCache V}
    (hstep : cacheStep op c = some c') (h : CacheInv c) :
    CacheInv c' ∧ c'.max_size = c.max_size := by
  cases op with
  | get k =>
      injection hstep with hh
      subst hh
      exact ⟨cacheInv_get c k h, get_max_size c k⟩
  | put k v => exact ⟨cacheInv_put hstep h, put_max_size hstep⟩
  | clearAll =>
      injection hstep with hh
      subst hh
      exact ⟨cacheInv_clearAll c, rfl⟩

/-- Unfolding equation for `cacheRun` on a successful step. -/
theorem cacheRun_cons_some {V : Type} {op : CacheOp V} {ops : List (CacheOp V)}
    {c c1 : PromptCache V} (hstep : cacheStep op c = some c1) :
    cacheRun (op :: ops) c = cacheRun ops c1 := by
  simp only [cacheRun]; rw [hstep]

/-- Unfolding equation for `cacheRun` on a failing step. -/
theorem cacheRun_cons_none {V : Type} {op : CacheOp V} {ops : List (CacheOp V)}
    {c : PromptCache V} (hstep : cacheStep op c = none) :
    cacheRun (op :: ops) c = none := by
  simp only [cacheRun]; rw [hstep]

/-- Any successful run from a state satisfying the invariant ends in a
state satisfying the invariant, with the same configured maximum. -/
theorem cacheRun_inv {V : Type} (ops : List (CacheOp V)) {c c' : PromptCache V}
    (hrun : cacheRun ops c = some c') (h : CacheInv c) :
    CacheInv c' ∧ c'.max_size = c.max_size := by
  induction ops generalizing c with
  | nil =>
      injection hrun with hh
      subst hh
      exact ⟨h, rfl⟩
  | cons op ops ih =>
      cases hstep : cacheStep op c with
      | none => rw [cacheRun_cons_none hstep] at hrun; exact absurd hrun (by simp)
      | some c1 =>
          rw [cacheRun_cons_some hstep] at hrun
          obtain ⟨h1, h2⟩ := cacheStep_inv hstep h
          obtain ⟨h3, h4⟩ := ih hrun h1
          exact ⟨h3, h4.trans h2⟩

/-- On a hit, `get` moves the key to most-recently-used position. -/
theorem get_access_order {V : Type} (c : PromptCache V) (k : String) (v0 : V)
    (hf : dictFind c.cache k = some v0) :
    (c.get k).2.access_order = listRemove c.access_order k ++ [k] := by
  unfold PromptCache.get; rw [hf]

/-- After any successful `put`, the access order is a sublist of the old
one (not containing the key) with the key appended as most recently
used. -/
theorem put_access_order {V : Type} {c c' : PromptCache V} {k : String} {v : V}
    (hput : c.put k v = some c') (h : CacheInv c) :
    ∃ l, c'.access_order = l ++ [k] ∧ List.Sublist l c.access_order ∧ k ∉ l := by
  obtain ⟨hao, hkeys, hiff, hlen, hmaxs⟩ := h
  by_cases hcond : c.max_size ≤ c.cache.length ∧ dictContains c.cache k = false
  · have hknomem : k ∉ keysOf c.cache := by
      intro hm
      have := (dictFind_isSome_iff_mem c.cache k).mpr hm
      rw [dictContains] at hcond
      rw [this] at hcond
      exact absurd hcond.2 (by simp)
    have hknotao : k ∉ c.access_order := by
      intro hm
      exact hknomem ((dictFind_isSome_iff_mem c.cache k).mp ((hiff k).mp hm))
    cases hao2 : c.access_order with
    | nil =>
        rw [put_evict_empty c k v hcond.1 hcond.2 hao2] at hput
        exact absurd hput (by simp)
    | cons oldest rest =>
        rw [put_evict c k v oldest rest hcond.1 hcond.2 hao2] at hput
        have hkno1 : dictContains (dictDelete c.cache oldest) k = false := by
          have hnm : k ∉ keysOf (dictDelete c.cache oldest) := by
            intro hm
            exact hknomem ((mem_keysOf_dictDelete oldest k hkeys).mp hm).1
          simp [dictContains, dictFind_eq_none_of_not_mem hnm]
        rw [putTail_new _ k v hkno1] at hput
        injection hput with hput
        subst hput
        refine ⟨rest, rfl, List.sublist_cons_self oldest rest, ?_⟩
        exact fun hm => hknotao (by
          rw [hao2]; exact List.mem_cons_of_mem _ hm)
  · rw [put_no_evict c k v hcond] at hput
    injection hput with hput
    subst hput
    cases hc : dictContains c.cache k with
    | true =>
        rw [putTail_existing c k v hc]
        refine ⟨listRemove c.access_order k, rfl, listRemove_sublist _ _, ?_⟩
        exact fun hm => ((mem_listRemove k k hao).mp hm).2 rfl
    | false =>
        rw [putTail_new c k v hc]
        have hknotao : k ∉ c.access_order := by
          intro hm
          have := (hiff k).mp hm
          rw [dictContains] at hc
          rw [this] at hc
          exact absurd hc (by simp)
        exact ⟨c.access_order, rfl, List.Sublist.refl _, hknotao⟩

/-- Stamping a fresh touch keeps the access order sorted by last touch and
bounded by the new clock. -/
theorem pairwise_touch_extend (τ : List (String × Nat)) (t : Nat)
    (l : List String) (k : String)
    (hne : ∀ a ∈ l, a ≠ k)
    (hlt : ∀ a ∈ l, (dictFind τ a).getD 0 < t)
    (hp : List.Pairwise (fun a b => (dictFind τ a).getD 0 < (dictFind τ b).getD 0) l) :
    List.Pairwise (fun a b => (dictFind (dictSet τ k t) a).getD 0 <
      (dictFind (dictSet τ k t) b).getD 0) (l ++ [k]) ∧
    ∀ x ∈ l ++ [k], (dictFind (dictSet τ k t) x).getD 0 < t + 1 := by
  constructor
  · rw [List.pairwise_append]
    refine ⟨?_, List.pairwise_singleton _ _, ?_⟩
    · refine List.Pairwise.imp_of_mem ?_ hp
      intro a b ha hb hab
      rw [dictFind_dictSet_ne τ t (hne a ha), dictFind_dictSet_ne τ t (hne b hb)]
      exact hab
    · intro a ha b hb
      rw [List.mem_singleton] at hb
      subst hb
      rw [dictFind_dictSet_ne τ t (hne a ha), dictFind_dictSet_self]
      simp only [Option.getD_some]
      exact hlt a ha
  · intro x hx
    rcases List.mem_append.mp hx with hx | hx
    · rw [dictFind_dictSet_ne τ t (hne x hx)]
      exact Nat.lt_succ_of_lt (hlt x hx)
    · rw [List.mem_singleton] at hx
      subst hx
      rw [dictFind_dictSet_self]
      simp only [Option.getD_some]
      exact Nat.lt_succ_self t

/-- Unfolding equation: ghost step on a cache hit. -/
theorem ghostStep_get_hit {V : Type} (g : LruGhost V) (k : String) (v0 : V)
    (hf : dictFind g.state.cache k = some v0) :
    ghostStep (CacheOp.get k) g =
      some ⟨(g.state.get k).2, dictSet g.touch k g.clock, g.clock + 1⟩ := by
  simp only [ghostStep]; rw [hf]

/-- Unfolding equation: ghost step on a cache miss. -/
theorem ghostStep_get_miss {V : Type} (g : LruGhost V) (k : String)
    (hf : dictFind g.state.cache k = none) :
    ghostStep (CacheOp.get k) g = some ⟨g.state, g.touch, g.clock + 1⟩ := by
  simp only [ghostStep]; rw [hf]

/-- Unfolding equation: ghost step on a successful put. -/
theorem ghostStep_put_some {V : Type} (g : LruGhost V) (k : String) (v : V)
    {c1 : PromptCache V} (hp : g.state.put k v = some c1) :
    ghostStep (CacheOp.put k v) g =
      some ⟨c1, dictSet g.touch k g.clock, g.clock + 1⟩ := by
  simp only [ghostStep]; rw [hp]

/-- Unfolding equation: ghost step on a raising put. -/
theorem ghostStep_put_none {V : Type} (g : LruGhost V) (k : String) (v : V)
    (hp : g.state.put k v = none) :
    ghostStep (CacheOp.put k v) g = none := by
  simp only [ghostStep]; rw [hp]

/-- The fresh ghost state satisfies the ghost invariant. -/
theorem ghostInv_init (V : Type) (M : Nat) : GhostInv (ghostInit V M) :=
  ⟨cacheInv_empty V M, List.Pairwise.nil, fun x hx => absurd hx (List.not_mem_nil x)⟩

/-- One ghost step preserves the ghost invariant. -/
theorem ghostInv_step {V : Type} {op : CacheOp V} {g g' : LruGhost V}
    (hstep : ghostStep op g = some g') (h : GhostInv g) : GhostInv g' := by
  obtain ⟨hcinv, hpair, hplt⟩ := h
  have haoNodup := hcinv.1
  cases op with
  | get k =>
      cases hf : dictFind g.state.cache k with
      | none =>
          rw [ghostStep_get_miss g k hf] at hstep
          injection hstep with hh
          subst hh
          exact ⟨hcinv, hpair, fun x hx => Nat.lt_succ_of_lt (hplt x hx)⟩
      | some v0 =>
          rw [ghostStep_get_hit g k v0 hf] at hstep
          injection hstep with hh
          subst hh
          have hext := pairwise_touch_extend g.touch g.clock
            (listRemove g.state.access_order k) k
            (fun a ha => ((mem_listRemove k a haoNodup).mp ha).2)
            (fun a ha => hplt a ((mem_listRemove k a haoNodup).mp ha).1)
            (List.Pairwise.sublist (listRemove_sublist _ _) hpair)
          refine ⟨cacheInv_get g.state k hcinv, ?_, ?_⟩
          · show List.Pairwise _ (g.state.get k).2.access_order
            rw [get_access_order g.state k v0 hf]
            exact hext.1
          · show ∀ x ∈ (g.state.get k).2.access_order, _
            rw [get_access_order g.state k v0 hf]
            exact hext.2
  | put k v =>
      cases hp : g.state.put k v with
      | none =>
          rw [ghostStep_put_none g k v hp] at hstep
          exact absurd hstep (by simp)
      | some c1 =>
          rw [ghostStep_put_some g k v hp] at hstep
          injection hstep with hh
          subst hh
          obtain ⟨l, haoeq, hsub, hknl⟩ := put_access_order hp hcinv
          have hext := pairwise_touch_extend g.touch g.clock l k
            (fun a ha hak => hknl (hak ▸ ha))
            (fun a ha => hplt a (hsub.subset ha))
            (List.Pairwise.sublist hsub hpair)
          refine ⟨cacheInv_put hp hcinv, ?_, ?_⟩
          · show List.Pairwise _ c1.access_order
            rw [haoeq]
            exact hext.1
          · show ∀ x ∈ c1.access_order, _
            rw [haoeq]
            exact hext.2
  | clearAll =>
      have hcl : ghostStep (CacheOp.clearAll : CacheOp V) g =
          some ⟨g.state.clearAll, g.touch, g.clock + 1⟩ := rfl
      rw [hcl] at hstep
      injection hstep with hh
      subst hh
      exact ⟨cacheInv_clearAll g.state, List.Pairwise.nil,
        fun x hx => absurd hx (List.not_mem_nil x)⟩

/-- Unfolding equation for `ghostRun` on a successful step. -/
theorem ghostRun_cons_some {V : Type} {op : CacheOp V} {ops : List (CacheOp V)}
    {g g1 : LruGhost V} (hstep : ghostStep op g = some g1) :
    ghostRun (op :: ops) g = ghostRun ops g1 := by
  simp only [ghostRun]; rw [hstep]

/-- Unfolding equation for `ghostRun` on a failing step. -/
theorem ghostRun_cons_none {V : Type} {op : CacheOp V} {ops : List (CacheOp V)}
    {g : LruGhost V} (hstep : ghostStep op g = none) :
    ghostRun (op :: ops) g = none := by
  simp only [ghostRun]; rw [hstep]

/-- The state component of a ghost step is the cache step. -/
theorem ghostStep_state {V : Type} {op : CacheOp V} {g g' : LruGhost V}
    (hstep : ghostStep op g = some g') : cacheStep op g.state = some g'.state := by
  cases op with
  | get k =>
      cases hf : dictFind g.state.cache k with
      | none =>
          rw [ghostStep_get_miss g k hf] at hstep
          injection hstep with hh
          subst hh
          show some (g.state.get k).2 = some g.state
          have hid : (g.state.get k).2 = g.state := by
            unfold PromptCache.get; rw [hf]
          rw [hid]
      | some v0 =>
          rw [ghostStep_get_hit g k v0 hf] at hstep
          injection hstep with hh
          subst hh
          rfl
  | put k v =>
      cases hp : g.state.put k v with
      | none =>
          rw [ghostStep_put_none g k v hp] at hstep
          exact absurd hstep (by simp)
      | some c1 =>
          rw [ghostStep_put_some g k v hp] at hstep
          injection hstep with hh
          subst hh
          exact hp
  | clearAll =>
      have hcl : ghostStep (CacheOp.clearAll : CacheOp V) g =
          some ⟨g.state.clearAll, g.touch, g.clock + 1⟩ := rfl
      rw [hcl] at hstep
      injection hstep with hh
      subst hh
      rfl

/-- A successful ghost run preserves the ghost invariant and the
configured maximum. -/
theorem ghostRun_inv {V : Type} (ops : List (CacheOp V)) {g g' : LruGhost V}
    (hrun : ghostRun ops g = some g') (h : GhostInv g) :
    GhostInv g' ∧ g'.state.max_size = g.state.max_size := by
  induction ops generalizing g with
  | nil =>
      injection hrun with hh
      subst hh
      exact ⟨h, rfl⟩
  | cons op ops ih =>
      cases hstep : ghostStep op g with
      | none => rw [ghostRun_cons_none hstep] at hrun; exact absurd hrun (by simp)
      | some g1 =>
          rw [ghostRun_cons_some hstep] at hrun
          have h1 := ghostInv_step hstep h
          have h2 := (cacheStep_inv (ghostStep_state hstep) h.1).2
          obtain ⟨h3, h4⟩ := ih hrun h1
          exact ⟨h3, h4.trans h2⟩

/-- The first projection of `get` is the dict lookup. -/
theorem get_fst {V : Type} (c : PromptCache V) (k : String) :
    (c.get k).1 = dictFind c.cache k := by
  cases hf : dictFind c.cache k with
  | none =>
      have hid : c.get k = (none, c) := by unfold PromptCache.get; rw [hf]
      rw [hid]
  | some v =>
      have hid : c.get k =
          (some v, { c with access_order := listRemove c.access_order k ++ [k] }) := by
        unfold PromptCache.get; rw [hf]
      rw [hid]

/-- Under the invariant and a positive capacity, `put` never raises. -/
theorem put_isSome_of_inv {V : Type} (c : PromptCache V) (k : String) (v : V)
    (hInv : CacheInv c) (hM : 1 ≤ c.max_size) : (c.put k v).isSome = true := by
  by_cases hcond : c.max_size ≤ c.cache.length ∧ dictContains c.cache k = false
  · cases hao : c.access_order with
    | nil =>
        exfalso
        have hlen := hInv.2.2.2.1
        rw [hao] at hlen
        simp only [List.length_nil] at hlen
        have h1 := hcond.1
        omega
    | cons oldest rest =>
        rw [put_evict c k v oldest rest hcond.1 hcond.2 hao]
        simp
  · rw [put_no_evict c k v hcond]
    simp

/-- C9: a `PromptCache` constructed with `max_size = 0` raises
`IndexError` (modelled as `none`) on the very first `put` of any key —
the eviction branch pops from the empty recency list — while from any
cache with `max_size ≥ 1` every reachable state accepts every `put`. -/
theorem put_zero_capacity_raises (V : Type) (k : String) (v : V)
    (M : Nat) (ops : List (CacheOp V)) (c' : PromptCache V) :
    (PromptCache.empty V 0).put k v = none ∧
    (1 ≤ M → cacheRun ops (PromptCache.empty V M) = some c' →
      ∀ k2 v2, (c'.put k2 v2).isSome = true) := by
  constructor
  · exact put_evict_empty (PromptCache.empty V 0) k v (Nat.le_refl 0) rfl rfl
  · intro hM hrun k2 v2
    obtain ⟨hInv, hmax⟩ := cacheRun_inv ops hrun (cacheInv_empty V M)
    refine put_isSome_of_inv c' k2 v2 hInv ?_
    rw [hmax]
    exact hM

/-- Witness for C9: the 0-capacity cache raises at once; the 1-capacity
cache accepts the same put. -/
theorem put_zero_capacity_raises_w :
    (PromptCache.empty Nat 0).put "a" 0 = none ∧
    ((PromptCache.empty Nat 1).put "a" 0).isSome = true :=
  ⟨(put_zero_capacity_raises Nat "a" 0 1 [] (PromptCache.empty Nat 1)).1,
   (put_zero_capacity_raises Nat "a" 0 1 [] (PromptCache.empty Nat 1)).2
     (by decide) rfl "a" 0⟩

/-- C6: from an empty cache with maximum M ≥ 1, after any successful
operation sequence: the number of stored entries never exceeds M; a put
of a new key while M entries are stored succeeds and evicts exactly the
least-recently-touched stored key (the head of the access order, whose
last-touch time is minimal) and no other; a get of an existing key
returns its value and moves it to most-recently-used position; a put of
an existing key moves it to most-recently-used position and replaces its
value without changing the entry count. -/
theorem lru_bounded_and_evicts_least_recent (V : Type) (M : Nat) (hM : 1 ≤ M)
    (ops : List (CacheOp V)) (g' : LruGhost V)
    (hrun : ghostRun ops (ghostInit V M) = some g') :
    g'.state.cache.length ≤ M ∧
    (∀ k v, dictFind g'.state.cache k = none → g'.state.cache.length = M →
      ∃ oldest rest, g'.state.access_order = oldest :: rest ∧
        (dictFind g'.state.cache oldest).isSome = true ∧
        (∀ k2, (dictFind g'.state.cache k2).isSome = true → k2 ≠ oldest →
          touchOf g' oldest < touchOf g' k2) ∧
        ∃ c2, g'.state.put k v = some c2 ∧
          dictFind c2.cache oldest = none ∧
          dictFind c2.cache k = some v ∧
          (∀ k2, k2 ≠ oldest → k2 ≠ k →
            dictFind c2.cache k2 = dictFind g'.state.cache k2) ∧
          c2.cache.length = M) ∧
    (∀ k, (dictFind g'.state.cache k).isSome = true →
      (g'.state.get k).2.access_order.getLast? = some k ∧
      (g'.state.get k).1 = dictFind g'.state.cache k) ∧
    (∀ k v c2, (dictFind g'.state.cache k).isSome = true →
      g'.state.put k v = some c2 →
      c2.access_order.getLast? = some k ∧ dictFind c2.cache k = some v ∧
      c2.cache.length = g'.state.cache.length) := by
  obtain ⟨hg, hmax⟩ := ghostRun_inv ops hrun (ghostInv_init V M)
  obtain ⟨hcinv, hpair, hplt⟩ := hg
  obtain ⟨hao, hkeys, hiff, hlen, hmaxs⟩ := hcinv
  have hmaxM : g'.state.max_size = M := hmax
  refine ⟨hmaxM ▸ hmaxs, ?_, ?_, ?_⟩
  · intro k v hknone hlenM
    have hcont : dictContains g'.state.cache k = false := by
      simp [dictContains, hknone]
    have hknokeys : k ∉ keysOf g'.state.cache := by
      intro hm
      have := (dictFind_isSome_iff_mem _ _).mpr hm
      rw [hknone] at this
      simp at this
    cases hao2 : g'.state.access_order with
    | nil =>
        exfalso
        rw [hao2] at hlen
        simp only [List.length_nil] at hlen
        omega
    | cons oldest rest =>
        have holdmem : oldest ∈ g'.state.access_order := by
          rw [hao2]; exact List.mem_cons_self oldest rest
        have holdstored : (dictFind g'.state.cache oldest).isSome = true :=
          (hiff oldest).mp holdmem
        have holdkeys : oldest ∈ keysOf g'.state.cache :=
          (dictFind_isSome_iff_mem _ _).mp holdstored
        have hko : oldest ≠ k := by
          intro hq
          rw [hq, hknone] at holdstored
          simp at holdstored
        refine ⟨oldest, rest, rfl, holdstored, ?_, ?_⟩
        · intro k2 hk2 hne
          have hk2mem : k2 ∈ g'.state.access_order := (hiff k2).mpr hk2
          rw [hao2] at hk2mem
          rcases List.mem_cons.mp hk2mem with h1 | h1
          · exact absurd h1 hne
          · have hp2 := hpair
            rw [hao2] at hp2
            exact (List.pairwise_cons.mp hp2).1 k2 h1
        · have hput := put_evict g'.state k v oldest rest
            (le_of_eq (hmaxM.trans hlenM.symm)) hcont hao2
          have hkno1 : dictContains (dictDelete g'.state.cache oldest) k = false := by
            have hnm : k ∉ keysOf (dictDelete g'.state.cache oldest) := by
              intro hm
              exact hknokeys ((mem_keysOf_dictDelete oldest k hkeys).mp hm).1
            simp [dictContains, dictFind_eq_none_of_not_mem hnm]
          rw [putTail_new _ k v hkno1] at hput
          refine ⟨_, hput, ?_, dictFind_dictSet_self _ _ _, ?_, ?_⟩
          · show dictFind (dictSet (dictDelete g'.state.cache oldest) k v) oldest = none
            rw [dictFind_dictSet_ne _ v hko]
            exact dictFind_dictDelete_self oldest hkeys
          · intro k2 hne1 hne2
            show dictFind (dictSet (dictDelete g'.state.cache oldest) k v) k2 =
              dictFind g'.state.cache k2
            rw [dictFind_dictSet_ne _ v hne2]
            exact dictFind_dictDelete_ne _ hne1
          · show (dictSet (dictDelete g'.state.cache oldest) k v).length = M
            have h1 : k ∉ keysOf (dictDelete g'.state.cache oldest) := by
              intro hm
              exact hknokeys ((mem_keysOf_dictDelete oldest k hkeys).mp hm).1
            rw [length_dictSet_not_mem _ k v h1]
            have h2 := length_dictDelete_mem holdkeys
            omega
  · intro k hk
    cases hfind : dictFind g'.state.cache k with
    | none => rw [hfind] at hk; simp at hk
    | some v0 =>
        constructor
        · rw [get_access_order g'.state k v0 hfind]
          exact List.getLast?_concat _
        · rw [get_fst]
          exact hfind
  · intro k v c2 hk hput
    have hcond : ¬(g'.state.max_size ≤ g'.state.cache.length ∧
        dictContains g'.state.cache k = false) := by
      rintro ⟨_, hfalse⟩
      rw [dictContains, hk] at hfalse
      simp at hfalse
    rw [put_no_evict _ k v hcond] at hput
    injection hput with hput
    subst hput
    have hcont : dictContains g'.state.cache k = true := hk
    rw [putTail_existing _ k v hcont]
    refine ⟨List.getLast?_concat _, dictFind_dictSet_self _ _ _, ?_⟩
    show (dictSet g'.state.cache k v).length = g'.state.cache.length
    exact length_dictSet_mem _ k v ((dictFind_isSome_iff_mem _ _).mp hk)

/-- Witness for C6: capacity 2, operations put a, put b, get a, put c;
the final state stores exactly the entries for a and c, b having been
evicted. -/
theorem lru_bounded_and_evicts_least_recent_w :
    (1 : Nat) ≤ 2 ∧
    (⟨⟨2, [("a", 0), ("c", 2)], ["a", "c"]⟩, [("a", 2), ("b", 1), ("c", 3)], 4⟩ :
      LruGhost Nat).state.cache.length ≤ 2 :=
  ⟨by decide,
   (lru_bounded_and_evicts_least_recent Nat 2 (by decide)
     [CacheOp.put "a" 0, CacheOp.put "b" 1, CacheOp.get "a", CacheOp.put "c" 2]
     ⟨⟨2, [("a", 0), ("c", 2)], ["a", "c"]⟩, [("a", 2), ("b", 1), ("c", 3)], 4⟩
     (by decide)).1⟩

end IndexTTS
